import Mathlib

set_option maxRecDepth 4000

/-! Shallow embedding of the AMD `view!` plugin (src/view.js, version 0.4.0).

Documents and names are modelled as lists of characters; JS string
primitives (`indexOf`, `substring`) are modelled by executable functions
below.  The utility modules `util/base` and `util/string` are external
collaborators of the parser (they are not part of src/view.js); they are
modelled from the specification and marked as such in their doc comments.
The source's scanning `while` loop can in principle run without bound for
adversarial custom hooks, so the embedded loop carries explicit fuel; a
run of the source corresponds to a sufficiently large fuel value, and the
fuel-exhausted branch merely returns the accumulated state. -/

abbrev Str := List Char

def strLit (s : String) : Str := s.data

/-- JS `String.prototype.substring(a, b)` for `a ≤ b`, the only way the
source calls it. -/
def sub (s : Str) (a b : Nat) : Str := (s.drop a).take (b - a)

/-- Scan helper for `strIndexOf`: position of the first occurrence of
`pat` in `s`, or `none` when there is no occurrence. -/
def strSearch (pat : Str) : Str → Option Nat
  | [] => if pat.isEmpty then some 0 else none
  | c :: rest =>
    if pat.isPrefixOf (c :: rest) then some 0
    else (strSearch pat rest).map (· + 1)

/-- JS `s.indexOf(pat, nStart)` for the nonempty patterns the source
uses: the smallest position `≥ nStart` at which `pat` occurs in `s`
(`none` models the JS result -1). -/
def strIndexOf (s pat : Str) (nStart : Nat) : Option Nat :=
  (strSearch pat (s.drop nStart)).map (· + nStart)

def toLowerStr (s : Str) : Str := s.map Char.toLower

/-- The JS `\w` character class: ASCII letters, digits and underscore. -/
def isWordChar (c : Char) : Bool := c.isAlphanum || c = '_'

/-- The check `pluginRegExp = /^\w+!/` (src/view.js line 163): tests whether a
resource name already carries an explicit loader prefix.  Since `!` is
not a word character, the regex matches exactly when a nonempty maximal
run of word characters is followed by `!`. -/
def pluginRegExpTest (s : Str) : Bool :=
  match s.takeWhile isWordChar, s.drop (s.takeWhile isWordChar).length with
  | [], _ => false
  | _ :: _, '!' :: _ => true
  | _, _ => false

/-- Constant `sInclusionStart` (src/view.js line 165): beginning of the
placeholder written in place of an inclusion directive. -/
def sInclusionStart : Str := strLit "<link rel=\"x-include\" href=\""

/-- Constant `sInclusionEnd` (src/view.js line 166). -/
def sInclusionEnd : Str := strLit "\">"

/-- The processing settings used by the default pipeline.  The source
keeps these (and the replaceable function hooks, of which only
`processIf` is consulted by the default `processTag`) in the
`defaultConfig`/settings object; `directiveTag` is kept already
normalized to a list, as the source's `findTag` does on entry. -/
structure Settings where
  cssLoader : Str
  defaultExt : Str
  defaultInclusionExt : Str
  directiveTag : List Str
  inclusionLoader : Str
  processIf : Str → Bool

/-- Modelled from the spec: the default Conditional Evaluator
(src/view.js lines 279-281) evaluates the `data-if` condition text as a
JS expression via `new Function` and coerces the result to boolean; JS
evaluation cannot be embedded, so the evaluator is modelled on the
fragment of conditions that are JS literals: the falsy literals give
`false` and every other condition is modelled as truthy.  Only the
condition text is consulted, as in the source for this fragment. -/
def processIf (condition : Str) : Bool :=
  ! [strLit "false", strLit "0", strLit "null", strLit "undefined",
     strLit "NaN", strLit "''", strLit "\"\""].contains condition

/-- Attribute maps are association lists in document order; the source
keeps them as JS objects whose keys enumerate in insertion order. -/
def lookupAttr : List (Str × Str) → Str → Option Str
  | [], _ => none
  | kv :: rest, key => if kv.1 = key then some kv.2 else lookupAttr rest key

def isNameChar (ch : Char) : Bool := ch != '=' && ch != ' '

def notQuote (ch : Char) : Bool := ch != '"'

/-- Fuel-indexed worker for `extractAttributes`; the fuel is an upper
bound on the number of scanning steps (each step consumes at least one
character). -/
def extractAttributesAux : Nat → Str → List (Str × Str)
  | 0, _ => []
  | _ + 1, [] => []
  | fuel + 1, c :: rest =>
    if c = ' ' then extractAttributesAux fuel rest
    else
      match List.dropWhile isNameChar (c :: rest) with
      | '=' :: '"' :: rest3 =>
        (toLowerStr (List.takeWhile isNameChar (c :: rest)),
         List.takeWhile notQuote rest3)
        :: extractAttributesAux fuel
             (List.drop 1 (List.dropWhile notQuote rest3))
      | _ => extractAttributesAux fuel rest

/-- Modelled from the spec: the Attribute Extractor of `util/string`, an
external collaborator not part of src/view.js ("raw tag text → attribute
mapping", attribute names lower-cased, including `data-`-prefixed names,
values kept as raw strings).  It scans `name="value"` pairs separated by
spaces. -/
def extractAttributes (s : Str) : List (Str × Str) :=
  extractAttributesAux s.length s

/-- Whether the last path segment of a resource name contains an
extension dot. -/
def hasFileExt (s : Str) : Bool :=
  (s.reverse.takeWhile (fun c => c != '/')).contains '.'

/-- Modelled from the spec: `util/base.nameWithExt`, an external
collaborator not part of src/view.js ("default file extension that is
used if it is not specified in resource name"): the default extension is
appended unless the name already carries one. -/
def nameWithExt (sName ext : Str) : Str :=
  if hasFileExt sName then sName else sName ++ '.' :: ext

/-- Function `defaultConfig.filterTag` (src/view.js lines 252-258).  A tag is
useful when it has a truthy `rel` attribute whose lower-cased value is a
recognized directive kind and a truthy `href` attribute. -/
def filterTag (sTagText : Str) (attrMap : List (Str × Str)) (settings : Settings) : Bool :=
  match lookupAttr attrMap (strLit "rel") with
  | none => false
  | some rel =>
    if rel.isEmpty then false
    else
      (match lookupAttr attrMap (strLit "href") with
       | some h => ! h.isEmpty
       | none => false)
      && (let sType := toLowerStr rel
          decide (sType = strLit "stylesheet" ∨ sType = strLit "css"
            ∨ sType = strLit "include" ∨ sType = strLit "x-include"
            ∨ sType = strLit "require" ∨ sType = strLit "x-require"))

/-- Result of classifying one tag (the object built by `processTag`).
The default `processTag` only ever produces a single dependency name or
none, which the parse loop wraps into a one-element list as the source
does for strings. -/
structure Inclusion where
  name : Str
  data : Option (List (Str × Str))
deriving DecidableEq, Repr

structure TagResult where
  dependency : Option Str
  inclusion : Option Inclusion
  text : Str
deriving DecidableEq, Repr

def noopResult : TagResult := { dependency := none, inclusion := none, text := [] }

/-- The inclusion branch of `defaultConfig.processTag` (src/view.js
lines 330-345), reached when the tag has no `data-if` attribute or the
conditional evaluator returned true.  `attrMap.type || inclusionLoader`
is JS truthiness: an empty `type` value falls back to the loader. -/
def inclusionResult (sName0 : Str) (attrMap : List (Str × Str)) (settings : Settings) : TagResult :=
  let sName1 :=
    if pluginRegExpTest sName0 then sName0
    else
      (match lookupAttr attrMap (strLit "type") with
       | some t => if t.isEmpty then settings.inclusionLoader else t
       | none => settings.inclusionLoader) ++ '!' :: sName0
  let sName2 := nameWithExt sName1 settings.defaultInclusionExt
  let dataList := attrMap.filterMap (fun kv =>
    if (strLit "data-").isPrefixOf kv.1 then some (kv.1.drop 5, kv.2) else none)
  { dependency := some sName2,
    inclusion := some { name := sName2,
                        data := if dataList.isEmpty then none else some dataList },
    text := sInclusionStart ++ sName2 ++ sInclusionEnd }

/-- Function `defaultConfig.processTag` (src/view.js lines 311-357).
`sName.indexOf(p) === 0` is prefix testing; string truthiness checks
become emptiness checks. -/
def processTag (sTagText : Str) (attrMap : List (Str × Str)) (settings : Settings) : TagResult :=
  if filterTag sTagText attrMap settings then
    let sName := (lookupAttr attrMap (strLit "href")).getD []
    let sType := toLowerStr ((lookupAttr attrMap (strLit "rel")).getD [])
    if sType = strLit "stylesheet" ∨ sType = strLit "css" then
      { noopResult with dependency := some (
          if (strLit "css!").isPrefixOf sName || (strLit "link!").isPrefixOf sName
          then sName
          else settings.cssLoader ++ '!' :: sName) }
    else if sType = strLit "include" ∨ sType = strLit "x-include" then
      match lookupAttr attrMap (strLit "data-if") with
      | some cond =>
        if settings.processIf cond then inclusionResult sName attrMap settings
        else noopResult
      | none => inclusionResult sName attrMap settings
    else if sType = strLit "require" ∨ sType = strLit "x-require" then
      { noopResult with dependency := some (
          match lookupAttr attrMap (strLit "type") with
          | some t =>
            if !t.isEmpty && !pluginRegExpTest sName then t ++ '!' :: sName else sName
          | none => sName) }
    else noopResult
  else noopResult

/-- Data about a tag found by the scanner (src/view.js lines 216-238). -/
structure FoundTag where
  name : Str
  position : Nat
  tagStart : Str
deriving DecidableEq, Repr

/-- The literal opening sequence searched for a configured tag name. -/
def tagPattern (nm : Str) : Str := '<' :: (nm ++ [' '])

/-- The accumulator loop of `defaultConfig.findTag`: scans the tag-name
list keeping the match with the smallest position; on equal positions
the earlier name in the list wins (the source updates only on a strictly
smaller position). -/
def findTagAux (sText : Str) (nStart : Nat) : List Str → Option (Str × Nat) → Option (Str × Nat)
  | [], acc => acc
  | nm :: rest, acc =>
    findTagAux sText nStart rest
      (match strIndexOf sText (tagPattern nm) nStart with
       | some k =>
         match acc with
         | none => some (nm, k)
         | some best => if k < best.2 then some (nm, k) else some best
       | none => acc)

/-- Function `defaultConfig.findTag` (src/view.js lines 216-238). -/
def findTag (sText : Str) (nStart : Nat) (settings : Settings) : Option FoundTag :=
  (findTagAux sText nStart settings.directiveTag none).map
    (fun best => { name := best.1, position := best.2, tagStart := tagPattern best.1 })

/-- Result of `defaultConfig.parse` (src/view.js lines 447-451).  The
source returns `inclusionMap` as `null` until an inclusion is recorded;
the empty list models that state.  `depMap` of the source is the
membership set of `depList`, updated in lockstep with it, so membership
is checked on the list itself. -/
structure ParseResult where
  resource : Str
  depList : List Str
  inclusionMap : List Inclusion
deriving DecidableEq, Repr

/-- Registry lookup: JS `name in inclusionMap`. -/
def inclLookup : List Inclusion → Str → Option Inclusion
  | [], _ => none
  | inc :: rest, nm => if inc.name = nm then some inc else inclLookup rest nm

/-- First-write-wins insertion into the inclusion registry
(src/view.js lines 403-409). -/
def regInsert (m : List Inclusion) (inc : Inclusion) : List Inclusion :=
  if (inclLookup m inc.name).isNone then m ++ [inc] else m

def regFold (m : List Inclusion) (l : List Inclusion) : List Inclusion :=
  l.foldl regInsert m

/-- The tag substring `sTag = sText.substring(nI, nK)` of one loop
iteration (`nK0` is the position of the closing `>`). -/
def stepSTag (sText : Str) (ft : FoundTag) (nK0 : Nat) : Str :=
  sub sText ft.position (nK0 + 1)

/-- The classification performed in one loop iteration (src/view.js
lines 395-399): the attribute text is the tag text without its opening
sequence and closing `>`. -/
def stepTagResult (sText : Str) (ft : FoundTag) (nK0 : Nat) (settings : Settings) : TagResult :=
  let sTag := stepSTag sText ft nK0
  processTag sTag
    (extractAttributes (sub sTag ft.tagStart.length (sTag.length - 1)))
    settings

/-- The document and cursor after one processed tag (src/view.js lines
425-431): on replacement the text is spliced and the cursor stays at the
tag's position `nI`; otherwise the cursor advances past the tag. -/
def stepNext (sText : Str) (ft : FoundTag) (nK0 : Nat) (settings : Settings) : Str × Nat :=
  let sTag := stepSTag sText ft nK0
  let tr := stepTagResult sText ft nK0 settings
  if tr.text = sTag then (sText, nK0 + 1)
  else (sub sText 0 ft.position ++ tr.text ++ sText.drop (nK0 + 1), ft.position)

inductive StepOut where
  | done : ParseResult → StepOut
  | next : Str → Nat → List Str → List Inclusion → StepOut
deriving DecidableEq, Repr

/-- One iteration of the scanning loop of `defaultConfig.parse`
(src/view.js lines 388-446): find the next tag, locate its closing `>`
(`done` with the accumulated state when either is missing — the silent
termination of the source's `break` and loop condition), guard the
degenerate zero position, classify, record inclusion and dependency
(skipping JS-falsy dependency strings and already present ones), and
compute the next document and cursor. -/
def parseStep (sText : Str) (cursor : Nat) (deps : List Str) (incl : List Inclusion)
    (settings : Settings) : StepOut :=
  match findTag sText cursor settings with
  | none => .done { resource := sText, depList := deps, inclusionMap := incl }
  | some ft =>
    match strIndexOf sText ['>'] (ft.position + ft.tagStart.length) with
    | none => .done { resource := sText, depList := deps, inclusionMap := incl }
    | some nK0 =>
      if nK0 = 0 then .next sText (nK0 + 1) deps incl
      else
        let tr := stepTagResult sText ft nK0 settings
        let incl2 := match tr.inclusion with
          | some inc => regInsert incl inc
          | none => incl
        let deps2 := match tr.dependency with
          | some d =>
            if d.isEmpty then deps
            else if deps.elem d then deps else deps ++ [d]
          | none => deps
        let nxt := stepNext sText ft nK0 settings
        .next nxt.1 nxt.2 deps2 incl2

/-- The scanning loop of `defaultConfig.parse`, iterated with fuel. -/
def parseLoop (settings : Settings) : Nat → Str → Nat → List Str → List Inclusion → ParseResult
  | 0, sText, _, deps, incl =>
    { resource := sText, depList := deps, inclusionMap := incl }
  | fuel + 1, sText, cursor, deps, incl =>
    match parseStep sText cursor deps incl settings with
    | .done r => r
    | .next t c d i => parseLoop settings fuel t c d i

/-- Function `defaultConfig.parse` (src/view.js lines 379-452). -/
def parse (sText : Str) (settings : Settings) (fuel : Nat) : ParseResult :=
  parseLoop settings fuel sText 0 [] []

/-- The default configuration (src/view.js lines 155-161) together with
the default conditional evaluator. -/
def defaultSettings : Settings :=
  { cssLoader := strLit "css",
    defaultExt := strLit "html",
    defaultInclusionExt := strLit "html",
    directiveTag := [strLit "link", strLit "x-link"],
    inclusionLoader := strLit "view",
    processIf := processIf }

/-! ## Instrumented scan trace

Specification-side companion of the scanning loop: it performs exactly
the same control flow as `parseStep`/`parseLoop` but records, in
document scan order, every dependency identifier the loop examines
(including duplicates, restricted to JS-truthy strings exactly as the
loop's `if (dependency)` guard) and every inclusion object it examines.
The parse results are related to this trace below. -/

def scanTrace (settings : Settings) : Nat → Str → Nat → List Str × List Inclusion
  | 0, _, _ => ([], [])
  | fuel + 1, sText, cursor =>
    match findTag sText cursor settings with
    | none => ([], [])
    | some ft =>
      match strIndexOf sText ['>'] (ft.position + ft.tagStart.length) with
      | none => ([], [])
      | some nK0 =>
        if nK0 = 0 then scanTrace settings fuel sText (nK0 + 1)
        else
          let tr := stepTagResult sText ft nK0 settings
          let nxt := stepNext sText ft nK0 settings
          let rest := scanTrace settings fuel nxt.1 nxt.2
          ((match tr.dependency with
            | some d => if d.isEmpty then [] else [d]
            | none => []) ++ rest.1,
           (match tr.inclusion with
            | some inc => [inc]
            | none => []) ++ rest.2)

/-- First-occurrence deduplication with an explicit seen set, shaped to
match the loop's `depMap` bookkeeping. -/
def firstDedupAux : List Str → List Str → List Str
  | _, [] => []
  | seen, d :: rest =>
    if seen.elem d then firstDedupAux seen rest
    else d :: firstDedupAux (seen ++ [d]) rest

/-- Keep the first occurrence of every identifier of a sequence. -/
def firstDedup (l : List Str) : List Str := firstDedupAux [] l

/-! ## Resolution and substitution phase

Embedding of the inclusion-substitution part of the plugin's `load`
function (src/view.js lines 501-533).  A fetched resource value is
polymorphic over three shapes; callables are modelled as functions from
the optional `data` payload (present iff the source would pass the
payload as the single argument, absent iff it would pass no argument) to
the already stringified result, since arbitrary JS values and `String()`
cannot be embedded.  The source's replacement loop, which can run
without bound for adversarial values, carries fuel. -/

inductive Resource where
  | plain : Str → Resource
  | callable : (Option (List (Str × Str)) → Str) → Resource
  | executable : (Option (List (Str × Str)) → Str) → Resource

/-- Invocation and stringification of a fetched value (src/view.js lines
516-522). -/
def resourceToString : Resource → Option (List (Str × Str)) → Str
  | .plain v, _ => v
  | .callable f, d => f d
  | .executable f, d => f d

/-- ECMA-262 GetSubstitution for a string search value (no capture
groups): in the replacement string, `$$` yields `$`, `$&` the matched
substring, `$` followed by a backquote the part of the text before the
match, `$'` the part after it; any other `$` sequence is literal (with
an empty capture list `$n` sequences are left unchanged, as engines and
the modern spec do). -/
def getSubstitution (matched before after : Str) : Str → Str
  | [] => []
  | c :: rest =>
    if c = '$' then
      match rest with
      | [] => ['$']
      | d :: rest2 =>
        if d = '$' then '$' :: getSubstitution matched before after rest2
        else if d = '&' then matched ++ getSubstitution matched before after rest2
        else if d = Char.ofNat 96 then before ++ getSubstitution matched before after rest2
        else if d = Char.ofNat 39 then after ++ getSubstitution matched before after rest2
        else '$' :: d :: getSubstitution matched before after rest2
    else c :: getSubstitution matched before after rest

/-- JS `sText.replace(pat, repl)` for a plain string pattern and a
string replacement value: the first occurrence of `pat` is replaced by
the GetSubstitution of `repl` (for a string search the matched
substring is the pattern itself). -/
def replaceFirst (sText pat repl : Str) : Str :=
  match strIndexOf sText pat 0 with
  | none => sText
  | some i =>
      sub sText 0 i
        ++ getSubstitution pat (sub sText 0 i) (sText.drop (i + pat.length)) repl
        ++ sText.drop (i + pat.length)

/-- The replacement loop `while ((nI = sText.indexOf(sInclusion, nI)) > -1)`
of src/view.js lines 524-527. -/
def replaceLoop (pat repl : Str) : Nat → Str → Nat → Str
  | 0, sText, _ => sText
  | fuel + 1, sText, nI =>
    match strIndexOf sText pat nI with
    | none => sText
    | some i => replaceLoop pat repl fuel (replaceFirst sText pat repl) i

/-- The placeholder marker rebuilt for an identifier (src/view.js line
523). -/
def inclusionMarker (nm : Str) : Str := sInclusionStart ++ nm ++ sInclusionEnd

/-- The "Make inclusions" loop of `load` (src/view.js lines 506-529):
for each registry entry, fetch its value, invoke/stringify it, and run
the replacement loop on the document. -/
def makeInclusions (fuel : Nat) (fetch : Str → Resource) (inclMap : List Inclusion)
    (sText : Str) : Str :=
  inclMap.foldl
    (fun txt inc =>
      replaceLoop (inclusionMarker inc.name)
        (resourceToString (fetch inc.name) inc.data) fuel txt 0)
    sText

/-! ## String-search lemmas -/

lemma isPrefixOf_self (l : Str) : l.isPrefixOf l = true := by
  induction l with
  | nil => simp [List.isPrefixOf]
  | cons c rest ih => simp [List.isPrefixOf, ih]

lemma isPrefixOf_append_left {l a : Str} (b : Str) (h : l.isPrefixOf a = true) :
    l.isPrefixOf (a ++ b) = true := by
  induction l generalizing a with
  | nil => simp [List.isPrefixOf]
  | cons x xs ih =>
    cases a with
    | nil => simp [List.isPrefixOf] at h
    | cons y ys =>
      simp only [List.isPrefixOf, Bool.and_eq_true] at h
      show (x :: xs).isPrefixOf (y :: (ys ++ b)) = true
      simp only [List.isPrefixOf, Bool.and_eq_true]
      exact ⟨h.1, ih h.2⟩

lemma isPrefixOf_of_le {l a : Str} {b : Str} (h : l.isPrefixOf (a ++ b) = true)
    (hle : l.length ≤ a.length) : l.isPrefixOf a = true := by
  induction l generalizing a with
  | nil => simp [List.isPrefixOf]
  | cons x xs ih =>
    cases a with
    | nil => simp at hle
    | cons y ys =>
      replace h : (x :: xs).isPrefixOf (y :: (ys ++ b)) = true := h
      simp only [List.isPrefixOf, Bool.and_eq_true] at h
      simp only [List.length_cons, Nat.succ_le_succ_iff] at hle
      simp only [List.isPrefixOf, Bool.and_eq_true]
      exact ⟨h.1, ih h.2 hle⟩

lemma mem_of_isPrefixOf_gt {l a b : Str} {x : Char}
    (h : l.isPrefixOf (a ++ x :: b) = true) (hlt : a.length < l.length) : x ∈ l := by
  induction a generalizing l with
  | nil =>
    cases l with
    | nil => simp at hlt
    | cons z zs =>
      simp only [List.nil_append, List.isPrefixOf, Bool.and_eq_true, beq_iff_eq] at h
      simp [h.1]
  | cons y ys ih =>
    cases l with
    | nil => simp at hlt
    | cons z zs =>
      replace h : (z :: zs).isPrefixOf (y :: (ys ++ x :: b)) = true := h
      simp only [List.isPrefixOf, Bool.and_eq_true] at h
      simp only [List.length_cons, Nat.succ_lt_succ_iff] at hlt
      exact List.mem_cons_of_mem z (ih h.2 hlt)

lemma strSearch_nil_pat (s : Str) : strSearch ([] : Str) s = some 0 := by
  cases s <;> simp [strSearch, List.isPrefixOf]

lemma strSearch_of_isPrefixOf {pat s : Str} (h : pat.isPrefixOf s = true) :
    strSearch pat s = some 0 := by
  cases s with
  | nil =>
    cases pat with
    | nil => simp [strSearch]
    | cons c cs => simp [List.isPrefixOf] at h
  | cons c rest => simp [strSearch, h]

lemma strSearch_some_isPrefixOf {pat s : Str} {i : Nat} (h : strSearch pat s = some i) :
    pat.isPrefixOf (s.drop i) = true := by
  induction s generalizing i with
  | nil =>
    simp only [strSearch] at h
    split at h <;> rename_i hres
    · cases h
      have hp : pat = [] := by simpa [List.isEmpty_iff] using hres
      subst hp
      simp [List.isPrefixOf]
    · cases h
  | cons c rest ih =>
    simp only [strSearch] at h
    split at h <;> rename_i hres
    · cases h
      simpa using hres
    · cases hr : strSearch pat rest with
      | none => rw [hr] at h; cases h
      | some j =>
        rw [hr] at h
        simp only [Option.map_some'] at h
        cases h
        simpa [List.drop_succ_cons] using ih hr

lemma strSearch_append_none {pat a : Str} (b : Str) (h : strSearch pat (a ++ b) = none) :
    strSearch pat a = none := by
  cases pat with
  | nil => rw [strSearch_nil_pat] at h; cases h
  | cons p ps =>
    induction a with
    | nil => simp [strSearch]
    | cons c rest ih =>
      replace h : strSearch (p :: ps) (c :: (rest ++ b)) = none := h
      simp only [strSearch] at h
      split at h <;> rename_i hpre
      · cases h
      · have hr : strSearch (p :: ps) (rest ++ b) = none := Option.map_eq_none'.mp h
        have hrest : strSearch (p :: ps) rest = none := ih hr
        have hnp : (p :: ps).isPrefixOf (c :: rest) = false := by
          by_contra hcon
          exact hpre (isPrefixOf_append_left b (Bool.of_not_eq_false hcon))
        simp [strSearch, hnp, hrest]

lemma strSearch_drop_none {pat s : Str} (h : strSearch pat s = none) (n : Nat) :
    strSearch pat (s.drop n) = none := by
  induction n generalizing s with
  | zero => simpa using h
  | succ m ih =>
    cases s with
    | nil => simpa using h
    | cons c rest =>
      simp only [strSearch] at h
      split at h <;> rename_i hpre
      · cases h
      · have hr : strSearch pat rest = none := Option.map_eq_none'.mp h
        simpa [List.drop_succ_cons] using ih hr

lemma strSearch_skip {x : Char} {ptail q : Str} (t : Str) (h : x ∉ q) :
    strSearch (x :: ptail) (q ++ t) = (strSearch (x :: ptail) t).map (· + q.length) := by
  induction q with
  | nil => cases hs : strSearch (x :: ptail) t <;> simp [hs]
  | cons c rest ih =>
    have hxc : x ≠ c := fun he => h (he ▸ List.mem_cons_self c rest)
    have hnp : (x :: ptail).isPrefixOf (c :: (rest ++ t)) = false := by
      simp [List.isPrefixOf, hxc]
    show strSearch (x :: ptail) (c :: (rest ++ t)) =
      (strSearch (x :: ptail) t).map (· + (c :: rest).length)
    simp only [strSearch, hnp, Bool.false_eq_true, if_false,
      ih (fun hm => h (List.mem_cons_of_mem c hm))]
    cases strSearch (x :: ptail) t with
    | none => simp
    | some v =>
      simp only [Option.map_some', List.length_cons, Option.some.injEq]
      omega

lemma strSearch_boundary {x : Char} {ptail p : Str} (t : Str) (hx : x ∉ ptail)
    (hp : strSearch (x :: ptail) p = none) :
    strSearch (x :: ptail) (p ++ (x :: ptail) ++ t) = some p.length := by
  induction p with
  | nil =>
    simp only [List.nil_append, List.length_nil]
    exact strSearch_of_isPrefixOf (isPrefixOf_append_left t (isPrefixOf_self _))
  | cons c rest ih =>
    simp only [strSearch] at hp
    split at hp <;> rename_i hpre
    · cases hp
    · have hrest : strSearch (x :: ptail) rest = none := Option.map_eq_none'.mp hp
      have hnp : (x :: ptail).isPrefixOf (c :: (rest ++ (x :: ptail) ++ t)) = false := by
        by_contra hcon
        have habs : (x :: ptail).isPrefixOf (c :: (rest ++ (x :: ptail) ++ t)) = true :=
          Bool.of_not_eq_false hcon
        simp only [List.isPrefixOf, Bool.and_eq_true, beq_iff_eq] at habs
        obtain ⟨hxc, htail⟩ := habs
        rcases le_or_lt ptail.length rest.length with hle | hlt
        · have hpref : ptail.isPrefixOf rest = true := by
            have hre : rest ++ (x :: ptail) ++ t = rest ++ ((x :: ptail) ++ t) := by
              simp [List.append_assoc]
            exact isPrefixOf_of_le (hre ▸ htail) hle
          exact hpre (by simp [List.isPrefixOf, hxc, hpref])
        · have hre : rest ++ (x :: ptail) ++ t = rest ++ x :: (ptail ++ t) := by
            simp [List.append_assoc]
          exact hx (mem_of_isPrefixOf_gt (hre ▸ htail) hlt)
      show strSearch (x :: ptail) (c :: (rest ++ (x :: ptail) ++ t)) = some (rest.length + 1)
      simp only [strSearch, hnp, Bool.false_eq_true, if_false, ih hrest,
        Option.map_some']

lemma strIndexOf_some {s pat : Str} {nStart j : Nat}
    (h : strIndexOf s pat nStart = some j) :
    nStart ≤ j ∧ pat.isPrefixOf (s.drop j) = true := by
  unfold strIndexOf at h
  cases hr : strSearch pat (s.drop nStart) with
  | none => rw [hr] at h; cases h
  | some i =>
    rw [hr] at h
    simp only [Option.map_some', Option.some.injEq] at h
    subst h
    refine ⟨Nat.le_add_left _ _, ?_⟩
    have := strSearch_some_isPrefixOf hr
    rwa [List.drop_drop, Nat.add_comm] at this

lemma lt_length_of_isPrefixOf_cons {x : Char} {xs s : Str} {j : Nat}
    (h : (x :: xs).isPrefixOf (s.drop j) = true) : j < s.length := by
  by_contra hle
  have hnil : s.drop j = [] := List.drop_eq_nil_of_le (Nat.le_of_not_lt hle)
  rw [hnil] at h
  simp [List.isPrefixOf] at h

lemma strIndexOf_none_of_search_none {s pat : Str} {nStart : Nat}
    (h : strSearch pat s = none) : strIndexOf s pat nStart = none := by
  unfold strIndexOf
  rw [strSearch_drop_none h nStart]
  rfl

/-- First occurrence of a marker that starts with a character `x`
occurring nowhere in its own tail: a search from inside the marker-free
prefix `p` finds exactly the boundary position `p.length`. -/
lemma strIndexOf_firstOcc {x : Char} {ptail p : Str} (t : Str) {nI : Nat}
    (hx : x ∉ ptail) (hp : strSearch (x :: ptail) p = none) (hle : nI ≤ p.length) :
    strIndexOf (p ++ (x :: ptail) ++ t) (x :: ptail) nI = some p.length := by
  unfold strIndexOf
  have hd : (p ++ (x :: ptail) ++ t).drop nI = (p.drop nI ++ (x :: ptail)) ++ t := by
    have h1 : (p ++ (x :: ptail) ++ t).drop nI = (p ++ (x :: ptail)).drop nI ++ t :=
      List.drop_append_of_le_length (by simp; omega)
    have h2 : (p ++ (x :: ptail)).drop nI = p.drop nI ++ (x :: ptail) :=
      List.drop_append_of_le_length hle
    rw [h1, h2]
  rw [hd]
  have hps : strSearch (x :: ptail) (p.drop nI) = none := strSearch_drop_none hp nI
  have := strSearch_boundary (p := p.drop nI) t hx hps
  rw [show (p.drop nI ++ (x :: ptail)) ++ t = p.drop nI ++ (x :: ptail) ++ t from rfl, this]
  simp only [Option.map_some', Option.some.injEq, List.length_drop]
  omega

/-! ## Substitution-phase lemmas -/

lemma intercalate_cons2 (s a b : Str) (l : List Str) :
    List.intercalate s (a :: b :: l) = a ++ s ++ List.intercalate s (b :: l) := by
  simp [List.intercalate, List.intersperse]

lemma intercalate_single (s a : Str) : List.intercalate s [a] = a := by
  simp [List.intercalate]

lemma intercalate_head_append (s x y : Str) (l : List Str) :
    x ++ List.intercalate s (y :: l) = List.intercalate s ((x ++ y) :: l) := by
  cases l with
  | nil => simp [intercalate_single]
  | cons z zs => simp [intercalate_cons2, List.append_assoc]

lemma getSubstitution_self (matched before after : Str) :
    ∀ {v : Str}, '$' ∉ v → getSubstitution matched before after v = v := by
  intro v
  induction v with
  | nil => intro _; rfl
  | cons c rest ih =>
    intro h
    have hc : ¬ c = '$' := fun he => h (he ▸ List.mem_cons_self c rest)
    have h2 := ih (fun hm => h (List.mem_cons_of_mem c hm))
    conv_lhs => rw [getSubstitution.eq_def]
    simp only [if_neg hc, h2]

lemma replaceFirst_boundary {x : Char} {ptail p : Str} (t v : Str)
    (hx : x ∉ ptail) (hp : strSearch (x :: ptail) p = none) (hv : '$' ∉ v) :
    replaceFirst (p ++ (x :: ptail) ++ t) (x :: ptail) v = p ++ v ++ t := by
  have hio : strIndexOf (p ++ (x :: ptail) ++ t) (x :: ptail) 0 = some p.length :=
    strIndexOf_firstOcc t hx hp (Nat.zero_le _)
  have h1 : sub (p ++ (x :: ptail) ++ t) 0 p.length = p := by
    unfold sub
    rw [List.drop_zero, Nat.sub_zero, List.append_assoc]
    exact List.take_left' rfl
  have h2 : (p ++ (x :: ptail) ++ t).drop (p.length + (x :: ptail).length) = t :=
    List.drop_left' (by simp)
  simp only [replaceFirst, hio, h1, h2, getSubstitution_self _ _ _ hv]

lemma replaceLoop_intercalate {x : Char} {mtail v : Str} (hx : x ∉ mtail)
    (hv : '$' ∉ v) :
    ∀ (ps : List Str) (p : Str) (fuel nI : Nat),
      ps.length ≤ fuel → nI ≤ p.length →
      strSearch (x :: mtail) (List.intercalate v (p :: ps)) = none →
      replaceLoop (x :: mtail) v fuel (List.intercalate (x :: mtail) (p :: ps)) nI
        = List.intercalate v (p :: ps) := by
  intro ps
  induction ps with
  | nil =>
    intro p fuel nI _ hnI hfree
    rw [intercalate_single] at hfree ⊢
    rw [intercalate_single]
    cases fuel with
    | zero => rfl
    | succ f =>
      unfold replaceLoop
      rw [strIndexOf_none_of_search_none hfree]
  | cons q qs ih =>
    intro p fuel nI hfuel hnI hfree
    cases fuel with
    | zero => simp at hfuel
    | succ f =>
      have hpfree : strSearch (x :: mtail) p = none := by
        rcases qs with _ | _
        · rw [intercalate_cons2, intercalate_single] at hfree
          exact strSearch_append_none _ (by rwa [List.append_assoc] at hfree)
        · rw [intercalate_cons2] at hfree
          exact strSearch_append_none _ (by rwa [List.append_assoc] at hfree)
      have htext : List.intercalate (x :: mtail) (p :: q :: qs)
          = p ++ (x :: mtail) ++ List.intercalate (x :: mtail) (q :: qs) :=
        intercalate_cons2 _ _ _ _
      have hcomb : p ++ v ++ List.intercalate (x :: mtail) (q :: qs)
          = List.intercalate (x :: mtail) ((p ++ v ++ q) :: qs) := by
        rw [List.append_assoc, intercalate_head_append, intercalate_head_append,
          ← List.append_assoc]
      have hcombv : p ++ v ++ List.intercalate v (q :: qs)
          = List.intercalate v ((p ++ v ++ q) :: qs) := by
        rw [List.append_assoc, intercalate_head_append, intercalate_head_append,
          ← List.append_assoc]
      have hio : strIndexOf (List.intercalate (x :: mtail) (p :: q :: qs)) (x :: mtail) nI
          = some p.length := by
        rw [htext]; exact strIndexOf_firstOcc _ hx hpfree hnI
      have hrf : replaceFirst (List.intercalate (x :: mtail) (p :: q :: qs)) (x :: mtail) v
          = List.intercalate (x :: mtail) ((p ++ v ++ q) :: qs) := by
        rw [htext, replaceFirst_boundary _ v hx hpfree hv, hcomb]
      have hfree2 : strSearch (x :: mtail) (List.intercalate v ((p ++ v ++ q) :: qs)) = none := by
        rw [← hcombv]
        rwa [intercalate_cons2] at hfree
      simp only [replaceLoop, hio, hrf]
      rw [ih (p ++ v ++ q) f p.length (Nat.le_of_succ_le_succ hfuel)
        (by simp) hfree2]
      rw [← hcombv]
      exact (intercalate_cons2 v p q qs).symm

lemma inclusionMarker_eq (nm : Str) :
    inclusionMarker nm
      = '<' :: (strLit "link rel=\"x-include\" href=\"" ++ nm ++ sInclusionEnd) := rfl

/-- C9 counterexample: a callable value containing the ECMA-262
substitution pattern `$$` is NOT spliced in verbatim: JS
`String.prototype.replace` applies GetSubstitution to the replacement
string, so the stringified return value `a$$b` replaces the placeholder
as `a$b`, refuting "replaced by the stringification of the returned
value" as stated. -/
theorem C9_counterexample :
    makeInclusions 2 (fun _ => Resource.callable (fun _ => strLit "a$$b"))
        [{ name := strLit "view!a.html", data := none }]
        (inclusionMarker (strLit "view!a.html"))
      = strLit "a$b"
    ∧ strLit "a$b" ≠ strLit "a$$b" :=
  ⟨by decide, by decide⟩

/-- C9 (amended): in the Resolution & Substitution Phase, a registry
entry whose fetched value is a callable has the callable invoked on the
entry's optional data payload (one argument when present, none
otherwise), and every occurrence of the identifier's placeholder marker
in the document is replaced by the GetSubstitution of the stringified
return value — which is the stringified value itself whenever it
contains no `$` character (the hypothesis here); values containing
`$`-patterns are transformed by the replacement, not inserted verbatim.
The document is presented as the interleaving of its marker occurrences
with the marker-free segments `parts`; the hypothesis `hfree` states
that the substituted value does not itself produce marker occurrences
(nested expansion is unsupported by design). -/
theorem C9_callable_substitution
    (f : Option (List (Str × Str)) → Str) (dat : Option (List (Str × Str)))
    (nm : Str) (parts : List Str) (fetch : Str → Resource) (fuel : Nat)
    (hfetch : fetch nm = Resource.callable f)
    (hlt : '<' ∉ nm)
    (hdollar : '$' ∉ f dat)
    (hfree : strSearch (inclusionMarker nm) (List.intercalate (f dat) parts) = none)
    (hfuel : parts.length ≤ fuel) :
    makeInclusions fuel fetch [⟨nm, dat⟩] (List.intercalate (inclusionMarker nm) parts)
      = List.intercalate (f dat) parts := by
  have hx : '<' ∉ (strLit "link rel=\"x-include\" href=\"" ++ nm ++ sInclusionEnd) := by
    intro hmem
    rcases List.mem_append.mp hmem with h1 | h2
    · rcases List.mem_append.mp h1 with h3 | h4
      · revert h3; decide
      · exact hlt h4
    · revert h2; decide
  simp only [makeInclusions, List.foldl_cons, List.foldl_nil, hfetch, resourceToString]
  cases parts with
  | nil =>
    have hnil : List.intercalate (inclusionMarker nm) ([] : List Str) = [] := by
      simp [List.intercalate]
    have hnilv : List.intercalate (f dat) ([] : List Str) = [] := by
      simp [List.intercalate]
    rw [hnil, hnilv]
    cases fuel with
    | zero => rfl
    | succ k =>
      unfold replaceLoop
      rw [strIndexOf_none_of_search_none (by simp [inclusionMarker_eq, strSearch])]
  | cons p ps =>
    rw [inclusionMarker_eq] at hfree ⊢
    exact replaceLoop_intercalate hx hdollar ps p fuel 0
      (Nat.le_of_succ_le hfuel) (Nat.zero_le _) hfree

/-- C9 witness: a concrete two-occurrence document, with a callable
value free of substitution patterns and a present data payload. -/
theorem C9_witness :
    makeInclusions 2 (fun _ => Resource.callable (fun _ => strLit "Z"))
        [⟨strLit "view!a.html", some [(strLit "title", strLit "Hi")]⟩]
        (List.intercalate (inclusionMarker (strLit "view!a.html"))
          [strLit "X", strLit "Y"])
      = List.intercalate ((fun (_ : Option (List (Str × Str))) => strLit "Z")
          (some [(strLit "title", strLit "Hi")])) [strLit "X", strLit "Y"] :=
  C9_callable_substitution (fun _ => strLit "Z")
    (some [(strLit "title", strLit "Hi")]) (strLit "view!a.html")
    [strLit "X", strLit "Y"] (fun _ => Resource.callable (fun _ => strLit "Z")) 2
    rfl (by decide) (by decide) (by decide) (by decide)

/-! ## Scan-loop bookkeeping lemmas -/

lemma firstDedupAux_nil (seen : List Str) : firstDedupAux seen [] = [] := rfl

lemma firstDedupAux_cons_mem {seen : List Str} {d : Str} (l : List Str)
    (h : seen.elem d = true) : firstDedupAux seen (d :: l) = firstDedupAux seen l := by
  have hm : d ∈ seen := List.elem_iff.mp h
  simp [firstDedupAux, List.elem_eq_mem, hm]

lemma firstDedupAux_cons_new {seen : List Str} {d : Str} (l : List Str)
    (h : seen.elem d = false) :
    firstDedupAux seen (d :: l) = d :: firstDedupAux (seen ++ [d]) l := by
  have hm : d ∉ seen := by
    intro hmm
    rw [List.elem_iff.mpr hmm] at h
    cases h
  simp [firstDedupAux, List.elem_eq_mem, hm]

lemma not_mem_of_mem_firstDedupAux {x : Str} :
    ∀ {l seen : List Str}, x ∈ firstDedupAux seen l → x ∉ seen := by
  intro l
  induction l with
  | nil => intro seen h; simp [firstDedupAux] at h
  | cons d rest ih =>
    intro seen h
    cases helem : seen.elem d with
    | true => exact ih (by rwa [firstDedupAux_cons_mem rest helem] at h)
    | false =>
      rw [firstDedupAux_cons_new rest helem] at h
      rcases List.mem_cons.mp h with rfl | hmem
      · intro hm; rw [List.elem_iff.mpr hm] at helem; cases helem
      · intro hm
        exact ih hmem (List.mem_append_left [d] hm)

lemma nodup_firstDedupAux : ∀ (l seen : List Str), (firstDedupAux seen l).Nodup := by
  intro l
  induction l with
  | nil => intro seen; simp [firstDedupAux]
  | cons d rest ih =>
    intro seen
    cases helem : seen.elem d with
    | true => rw [firstDedupAux_cons_mem rest helem]; exact ih seen
    | false =>
      rw [firstDedupAux_cons_new rest helem]
      refine List.nodup_cons.mpr ⟨?_, ih (seen ++ [d])⟩
      intro hmem
      exact not_mem_of_mem_firstDedupAux hmem (List.mem_append_right seen (by simp))

lemma mem_append_firstDedupAux {x : Str} :
    ∀ {l seen : List Str}, x ∈ l → x ∈ seen ++ firstDedupAux seen l := by
  intro l
  induction l with
  | nil => intro seen h; cases h
  | cons d rest ih =>
    intro seen h
    cases helem : seen.elem d with
    | true =>
      rw [firstDedupAux_cons_mem rest helem]
      rcases List.mem_cons.mp h with rfl | hmem
      · exact List.mem_append_left _ (List.elem_iff.mp helem)
      · exact ih hmem
    | false =>
      rw [firstDedupAux_cons_new rest helem]
      rcases List.mem_cons.mp h with rfl | hmem
      · exact List.mem_append_right _ (List.mem_cons_self _ _)
      · have hx := @ih (seen ++ [d]) hmem
        rcases List.mem_append.mp hx with hx1 | hx2
        · rcases List.mem_append.mp hx1 with hx3 | hx4
          · exact List.mem_append_left _ hx3
          · rcases List.mem_singleton.mp hx4 with rfl
            exact List.mem_append_right _ (List.mem_cons_self _ _)
        · exact List.mem_append_right _ (List.mem_cons_of_mem _ hx2)

lemma inclLookup_append_single (m : List Inclusion) (inc : Inclusion) (nm : Str) :
    inclLookup (m ++ [inc]) nm
      = match inclLookup m nm with
        | some e => some e
        | none => if inc.name = nm then some inc else none := by
  induction m with
  | nil => simp [inclLookup]
  | cons i rest ih =>
    show inclLookup (i :: (rest ++ [inc])) nm = _
    by_cases hi : i.name = nm
    · simp [inclLookup, hi]
    · simp only [inclLookup, if_neg hi, ih]

lemma inclLookup_eq_none_iff {m : List Inclusion} {nm : Str} :
    inclLookup m nm = none ↔ ∀ i ∈ m, i.name ≠ nm := by
  induction m with
  | nil => simp [inclLookup]
  | cons i rest ih =>
    by_cases hi : i.name = nm
    · simp [inclLookup, hi]
    · simp [inclLookup, hi, ih]

lemma regFold_lookup (tr : List Inclusion) :
    ∀ (m : List Inclusion) (nm : Str),
      inclLookup (regFold m tr) nm
        = match inclLookup m nm with
          | some e => some e
          | none => inclLookup tr nm := by
  induction tr with
  | nil =>
    intro m nm
    have hr : regFold m [] = m := rfl
    rw [hr]
    cases h : inclLookup m nm with
    | some e => simp [h]
    | none => simp [h, inclLookup]
  | cons inc rest ih =>
    intro m nm
    have hstep : regFold m (inc :: rest) = regFold (regInsert m inc) rest := rfl
    rw [hstep, ih]
    unfold regInsert
    by_cases hins : (inclLookup m inc.name).isNone
    · rw [if_pos hins, inclLookup_append_single]
      have hmn : inclLookup m inc.name = none := Option.isNone_iff_eq_none.mp hins
      cases hml : inclLookup m nm with
      | some e => simp
      | none =>
        simp only [inclLookup]
        by_cases hnm : inc.name = nm
        · simp [hnm]
        · simp [hnm]
    · rw [if_neg hins]
      cases hml : inclLookup m nm with
      | some e => simp
      | none =>
        simp only [inclLookup]
        by_cases hnm : inc.name = nm
        · subst hnm
          rw [hml] at hins
          simp at hins
        · simp [hnm]

lemma regFold_keys_nodup (tr : List Inclusion) :
    ∀ (m : List Inclusion), (m.map Inclusion.name).Nodup →
      ((regFold m tr).map Inclusion.name).Nodup := by
  induction tr with
  | nil => intro m h; exact h
  | cons inc rest ih =>
    intro m h
    have hstep : regFold m (inc :: rest) = regFold (regInsert m inc) rest := rfl
    rw [hstep]
    refine ih _ ?_
    unfold regInsert
    by_cases hins : (inclLookup m inc.name).isNone
    · rw [if_pos hins]
      have hmn : ∀ i ∈ m, i.name ≠ inc.name :=
        inclLookup_eq_none_iff.mp (Option.isNone_iff_eq_none.mp hins)
      rw [List.map_append]
      simp only [List.map_cons, List.map_nil]
      refine List.Nodup.append h (List.nodup_singleton _) ?_
      intro a ha hb
      rcases List.mem_singleton.mp hb with rfl
      rcases List.mem_map.mp ha with ⟨i, him, hin⟩
      exact hmn i him hin
    · rw [if_neg hins]; exact h

lemma inclLookup_isSome_of_mem {m : List Inclusion} {nm : Str} {i : Inclusion}
    (him : i ∈ m) (hn : i.name = nm) : (inclLookup m nm).isSome := by
  induction m with
  | nil => cases him
  | cons j rest ih =>
    rcases List.mem_cons.mp him with rfl | hmem
    · simp [inclLookup, hn]
    · by_cases hj : j.name = nm
      · simp [inclLookup, hj]
      · simp only [inclLookup, if_neg hj]
        exact ih hmem

lemma filter_name_of_lookup {nm : Str} :
    ∀ {m : List Inclusion} {e : Inclusion},
      ((m.map Inclusion.name).Nodup) → inclLookup m nm = some e →
      m.filter (fun i => i.name == nm) = [e] := by
  intro m
  induction m with
  | nil => intro e _ hl; cases hl
  | cons i rest ih =>
    intro e hnd hl
    have hnd' : (Inclusion.name i :: rest.map Inclusion.name).Nodup := by simpa using hnd
    by_cases hi : i.name = nm
    · have he : e = i := by
        rw [show inclLookup (i :: rest) nm = some i from by simp [inclLookup, hi]] at hl
        exact (Option.some_inj.mp hl).symm
      subst he
      have hni := (List.nodup_cons.mp hnd').1
      have hrest : ∀ j ∈ rest, ¬ ((fun i => i.name == nm) j = true) := by
        intro j hj hb
        have hjn : j.name = nm := by simpa using hb
        exact hni (List.mem_map.mpr ⟨j, hj, by rw [hjn, hi]⟩)
      rw [List.filter_cons_of_pos (by simp [hi])]
      rw [List.filter_eq_nil.mpr hrest]
    · have hl' : inclLookup rest nm = some e := by
        rwa [show inclLookup (i :: rest) nm = inclLookup rest nm from by
          simp [inclLookup, hi]] at hl
      rw [List.filter_cons_of_neg (by simp [hi])]
      exact ih (List.nodup_cons.mp hnd').2 hl'

lemma parseLoop_succ_main {settings : Settings} {sText : Str} {cursor : Nat}
    {ft : FoundTag} {nK0 : Nat} (f : Nat) (deps : List Str) (incl : List Inclusion)
    (hft : findTag sText cursor settings = some ft)
    (hk : strIndexOf sText ['>'] (ft.position + ft.tagStart.length) = some nK0)
    (h0 : ¬ nK0 = 0) :
    parseLoop settings (f + 1) sText cursor deps incl
      = parseLoop settings f (stepNext sText ft nK0 settings).1
          (stepNext sText ft nK0 settings).2
          (match (stepTagResult sText ft nK0 settings).dependency with
           | some d => if d.isEmpty then deps
                       else if deps.elem d then deps else deps ++ [d]
           | none => deps)
          (match (stepTagResult sText ft nK0 settings).inclusion with
           | some inc => regInsert incl inc
           | none => incl) := by
  simp only [parseLoop, parseStep, hft, hk, if_neg h0]

lemma scanTrace_succ_main {settings : Settings} {sText : Str} {cursor : Nat}
    {ft : FoundTag} {nK0 : Nat} (f : Nat)
    (hft : findTag sText cursor settings = some ft)
    (hk : strIndexOf sText ['>'] (ft.position + ft.tagStart.length) = some nK0)
    (h0 : ¬ nK0 = 0) :
    scanTrace settings (f + 1) sText cursor
      = ((match (stepTagResult sText ft nK0 settings).dependency with
          | some d => if d.isEmpty then [] else [d]
          | none => []) ++
           (scanTrace settings f (stepNext sText ft nK0 settings).1
             (stepNext sText ft nK0 settings).2).1,
         (match (stepTagResult sText ft nK0 settings).inclusion with
          | some inc => [inc]
          | none => []) ++
           (scanTrace settings f (stepNext sText ft nK0 settings).1
             (stepNext sText ft nK0 settings).2).2) := by
  simp only [scanTrace, hft, hk, if_neg h0]

lemma parseLoop_trace (settings : Settings) :
    ∀ (fuel : Nat) (sText : Str) (cursor : Nat) (deps : List Str) (incl : List Inclusion),
      (parseLoop settings fuel sText cursor deps incl).depList
          = deps ++ firstDedupAux deps (scanTrace settings fuel sText cursor).1
        ∧ (parseLoop settings fuel sText cursor deps incl).inclusionMap
          = regFold incl (scanTrace settings fuel sText cursor).2 := by
  intro fuel
  induction fuel with
  | zero =>
    intro sText cursor deps incl
    simp [parseLoop, scanTrace, firstDedupAux_nil, regFold]
  | succ f ih =>
    intro sText cursor deps incl
    cases hft : findTag sText cursor settings with
    | none =>
      simp [parseLoop, parseStep, scanTrace, hft, firstDedupAux_nil, regFold]
    | some ft =>
      cases hk : strIndexOf sText ['>'] (ft.position + ft.tagStart.length) with
      | none =>
        simp [parseLoop, parseStep, scanTrace, hft, hk, firstDedupAux_nil, regFold]
      | some nK0 =>
        by_cases h0 : nK0 = 0
        · subst h0
          simp only [parseLoop, parseStep, scanTrace, hft, hk, if_pos rfl]
          exact ih sText (0 + 1) deps incl
        · rw [parseLoop_succ_main f deps incl hft hk h0, scanTrace_succ_main f hft hk h0]
          constructor
          · cases hdep : (stepTagResult sText ft nK0 settings).dependency with
            | none =>
              simp only [List.nil_append]
              exact (ih _ _ _ _).1
            | some d =>
              cases hde : d.isEmpty with
              | true =>
                simp only [hde, reduceIte, List.nil_append]
                exact (ih _ _ _ _).1
              | false =>
                simp only [hde, Bool.false_eq_true, reduceIte, List.singleton_append]
                cases helem : deps.elem d with
                | true =>
                  simp only [helem, reduceIte]
                  rw [firstDedupAux_cons_mem _ helem]
                  exact (ih _ _ _ _).1
                | false =>
                  simp only [helem, Bool.false_eq_true, reduceIte]
                  rw [firstDedupAux_cons_new _ helem]
                  rw [(ih _ _ _ _).1]
                  simp [List.append_assoc]
          · cases hinc : (stepTagResult sText ft nK0 settings).inclusion with
            | none =>
              simp only [List.nil_append]
              exact (ih _ _ _ _).2
            | some inc =>
              simp only [List.singleton_append]
              rw [(ih _ _ _ _).2]
              rfl

lemma parse_depList (sText : Str) (settings : Settings) (fuel : Nat) :
    (parse sText settings fuel).depList
      = firstDedup (scanTrace settings fuel sText 0).1 := by
  have h := (parseLoop_trace settings fuel sText 0 [] []).1
  simpa [parse, firstDedup] using h

lemma parse_inclusionMap (sText : Str) (settings : Settings) (fuel : Nat) :
    (parse sText settings fuel).inclusionMap
      = regFold [] (scanTrace settings fuel sText 0).2 :=
  (parseLoop_trace settings fuel sText 0 [] []).2

lemma parse_depList_nodup (sText : Str) (settings : Settings) (fuel : Nat) :
    (parse sText settings fuel).depList.Nodup := by
  rw [parse_depList]
  exact nodup_firstDedupAux _ _

lemma filterTag_href {sTagText : Str} {attrMap : List (Str × Str)} {settings : Settings}
    (h : filterTag sTagText attrMap settings = true) :
    ((lookupAttr attrMap (strLit "href")).getD []).isEmpty = false := by
  unfold filterTag at h
  cases hrel : lookupAttr attrMap (strLit "rel") with
  | none => simp only [hrel] at h; cases h
  | some rel =>
    simp only [hrel] at h
    by_cases hre : rel.isEmpty
    · rw [if_pos hre] at h; cases h
    · rw [if_neg hre, Bool.and_eq_true] at h
      cases hhr : lookupAttr attrMap (strLit "href") with
      | none => simp only [hhr] at h; exact absurd h.1 (by simp)
      | some hv =>
        simp only [hhr] at h
        have hv1 := h.1
        simp only [Option.getD_some, hhr]
        cases hb : hv.isEmpty
        · rfl
        · rw [hb] at hv1; simp at hv1

lemma nameWithExt_isEmpty_false {sName ext : Str} (h : sName.isEmpty = false) :
    (nameWithExt sName ext).isEmpty = false := by
  unfold nameWithExt
  split
  · exact h
  · cases sName with
    | nil => cases h
    | cons c rest => rfl

lemma append_cons_isEmpty_false (a : Str) (c : Char) (b : Str) :
    (a ++ c :: b).isEmpty = false := by
  cases a <;> rfl

lemma inclusionResult_fields (sName0 : Str) (attrMap : List (Str × Str))
    (settings : Settings) (h : sName0.isEmpty = false) :
    ∃ nm dat, inclusionResult sName0 attrMap settings
        = { dependency := some nm,
            inclusion := some { name := nm, data := dat },
            text := sInclusionStart ++ nm ++ sInclusionEnd }
      ∧ nm.isEmpty = false := by
  unfold inclusionResult
  refine ⟨_, _, rfl, ?_⟩
  apply nameWithExt_isEmpty_false
  split
  · exact h
  · exact append_cons_isEmpty_false _ _ _

lemma processTag_inclusion_dependency {sTagText : Str} {attrMap : List (Str × Str)}
    {settings : Settings} {inc : Inclusion}
    (h : (processTag sTagText attrMap settings).inclusion = some inc) :
    (processTag sTagText attrMap settings).dependency = some inc.name
      ∧ inc.name.isEmpty = false := by
  unfold processTag at h ⊢
  by_cases hf : filterTag sTagText attrMap settings
  · rw [if_pos hf] at h ⊢
    have hhref := filterTag_href hf
    by_cases hcss : toLowerStr ((lookupAttr attrMap (strLit "rel")).getD [])
        = strLit "stylesheet"
      ∨ toLowerStr ((lookupAttr attrMap (strLit "rel")).getD []) = strLit "css"
    · rw [if_pos hcss] at h; cases h
    · rw [if_neg hcss] at h ⊢
      by_cases hinc : toLowerStr ((lookupAttr attrMap (strLit "rel")).getD [])
          = strLit "include"
        ∨ toLowerStr ((lookupAttr attrMap (strLit "rel")).getD []) = strLit "x-include"
      · rw [if_pos hinc] at h ⊢
        obtain ⟨nm, dat, hir, hne⟩ :=
          inclusionResult_fields ((lookupAttr attrMap (strLit "href")).getD [])
            attrMap settings hhref
        cases hdif : lookupAttr attrMap (strLit "data-if") with
        | none =>
          simp only [hdif] at h ⊢
          rw [hir] at h ⊢
          simp only [Option.some_inj] at h
          subst h
          exact ⟨rfl, hne⟩
        | some cond =>
          simp only [hdif] at h ⊢
          by_cases hpi : settings.processIf cond
          · rw [if_pos hpi] at h ⊢
            rw [hir] at h ⊢
            simp only [Option.some_inj] at h
            subst h
            exact ⟨rfl, hne⟩
          · rw [if_neg hpi] at h; cases h
      · rw [if_neg hinc] at h ⊢
        by_cases hreq : toLowerStr ((lookupAttr attrMap (strLit "rel")).getD [])
            = strLit "require"
          ∨ toLowerStr ((lookupAttr attrMap (strLit "rel")).getD []) = strLit "x-require"
        · rw [if_pos hreq] at h; cases h
        · rw [if_neg hreq] at h; cases h
  · rw [if_neg hf] at h; cases h

lemma stepTagResult_eq (sText : Str) (ft : FoundTag) (nK0 : Nat) (settings : Settings) :
    stepTagResult sText ft nK0 settings
      = processTag (stepSTag sText ft nK0)
          (extractAttributes
            (sub (stepSTag sText ft nK0) ft.tagStart.length
              ((stepSTag sText ft nK0).length - 1)))
          settings := rfl

lemma scanTrace_incl_dep (settings : Settings) :
    ∀ (fuel : Nat) (sText : Str) (cursor : Nat) (inc : Inclusion),
      inc ∈ (scanTrace settings fuel sText cursor).2 →
      inc.name ∈ (scanTrace settings fuel sText cursor).1 := by
  intro fuel
  induction fuel with
  | zero => intro sText cursor inc h; simp [scanTrace] at h
  | succ f ih =>
    intro sText cursor inc h
    cases hft : findTag sText cursor settings with
    | none => simp [scanTrace, hft] at h
    | some ft =>
      cases hk : strIndexOf sText ['>'] (ft.position + ft.tagStart.length) with
      | none => simp [scanTrace, hft, hk] at h
      | some nK0 =>
        by_cases h0 : nK0 = 0
        · subst h0
          simp only [scanTrace, hft, hk, reduceIte] at h ⊢
          exact ih _ _ _ h
        · rw [scanTrace_succ_main f hft hk h0] at h ⊢
          cases hti : (stepTagResult sText ft nK0 settings).inclusion with
          | none =>
            rw [hti] at h
            simp only [List.nil_append] at h
            exact List.mem_append_right _ (ih _ _ _ h)
          | some inc0 =>
            rw [hti] at h
            obtain ⟨hdep, hne⟩ := processTag_inclusion_dependency
              (by rw [← stepTagResult_eq]; exact hti)
            rw [← stepTagResult_eq] at hdep
            rw [hdep]
            simp only [hne, Bool.false_eq_true, reduceIte]
            rcases List.mem_cons.mp (by simpa using h) with rfl | hmem
            · exact List.mem_append_left _ (List.mem_cons_self _ _)
            · exact List.mem_append_right _ (ih _ _ _ hmem)

lemma count_eq_one_of_nodup_mem {l : List Str} {a : Str} (hnd : l.Nodup) (hm : a ∈ l) :
    l.count a = 1 := by
  induction l with
  | nil => cases hm
  | cons b rest ih =>
    rcases List.mem_cons.mp hm with rfl | hmem
    · rw [List.count_cons_self,
        List.count_eq_zero.mpr (List.nodup_cons.mp hnd).1]
    · have hne : a ≠ b := by
        intro he
        subst he
        exact (List.nodup_cons.mp hnd).1 hmem
      rw [List.count_cons_of_ne hne]
      exact ih (List.nodup_cons.mp hnd).2 hmem

/-- C7: for every document (and fuel and settings), the dependency list
returned by the Parse Engine is the first-occurrence deduplication of
the sequence of dependency identifiers that the scan examines in
document order, and it contains no duplicates. -/
theorem C7_depList_first_occurrence (sText : Str) (settings : Settings) (fuel : Nat) :
    (parse sText settings fuel).depList
        = firstDedup (scanTrace settings fuel sText 0).1
      ∧ (parse sText settings fuel).depList.Nodup :=
  ⟨parse_depList sText settings fuel, parse_depList_nodup sText settings fuel⟩

/-- C6: whenever inclusion directives with the same resolved identifier
are examined more than once during the scan, the inclusion registry has
exactly one entry for that identifier, the entry is the first examined
inclusion with that identifier (first `data` payload wins), and the
dependency list contains the identifier exactly once. -/
theorem C6_duplicate_inclusions (sText : Str) (settings : Settings) (fuel : Nat) (nm : Str)
    (h2 : 2 ≤ ((scanTrace settings fuel sText 0).2.filter
      (fun i => i.name == nm)).length) :
    ((parse sText settings fuel).inclusionMap.filter (fun i => i.name == nm)).length = 1
    ∧ inclLookup (parse sText settings fuel).inclusionMap nm
        = inclLookup (scanTrace settings fuel sText 0).2 nm
    ∧ (parse sText settings fuel).depList.count nm = 1 := by
  have hmap := parse_inclusionMap sText settings fuel
  have hlook : inclLookup (parse sText settings fuel).inclusionMap nm
      = inclLookup (scanTrace settings fuel sText 0).2 nm := by
    rw [hmap, regFold_lookup]
    simp [inclLookup]
  obtain ⟨e, hef⟩ := List.exists_mem_of_length_pos
    (show 0 < ((scanTrace settings fuel sText 0).2.filter (fun i => i.name == nm)).length by
      omega)
  have hmem2 := List.mem_filter.mp hef
  have hename : e.name = nm := by simpa using hmem2.2
  refine ⟨?_, hlook, ?_⟩
  · have hnd : (((parse sText settings fuel).inclusionMap).map Inclusion.name).Nodup := by
      rw [hmap]
      exact regFold_keys_nodup _ [] (by simp)
    have hsome : (inclLookup (parse sText settings fuel).inclusionMap nm).isSome := by
      rw [hlook]
      exact inclLookup_isSome_of_mem hmem2.1 hename
    obtain ⟨e2, he2⟩ := Option.isSome_iff_exists.mp hsome
    rw [filter_name_of_lookup hnd he2]
    rfl
  · have hnm1 : nm ∈ (scanTrace settings fuel sText 0).1 := by
      have := scanTrace_incl_dep settings fuel sText 0 e hmem2.1
      rwa [hename] at this
    have hmemdep : nm ∈ (parse sText settings fuel).depList := by
      rw [parse_depList]
      have hma := @mem_append_firstDedupAux nm _ [] hnm1
      simpa [firstDedup] using hma
    exact count_eq_one_of_nodup_mem (parse_depList_nodup sText settings fuel) hmemdep

/-- C6 witness: a document with two inclusion directives resolving to
the same identifier but different data payloads. -/
theorem C6_witness :
    ((parse (strLit "<link rel=\"x-include\" href=\"a\" data-t=\"1\"><link rel=\"x-include\" href=\"a\" data-t=\"2\">")
        defaultSettings 6).inclusionMap.filter
      (fun i => i.name == strLit "view!a.html")).length = 1
    ∧ inclLookup (parse (strLit "<link rel=\"x-include\" href=\"a\" data-t=\"1\"><link rel=\"x-include\" href=\"a\" data-t=\"2\">")
        defaultSettings 6).inclusionMap (strLit "view!a.html")
        = inclLookup (scanTrace defaultSettings 6
            (strLit "<link rel=\"x-include\" href=\"a\" data-t=\"1\"><link rel=\"x-include\" href=\"a\" data-t=\"2\">") 0).2
            (strLit "view!a.html")
    ∧ (parse (strLit "<link rel=\"x-include\" href=\"a\" data-t=\"1\"><link rel=\"x-include\" href=\"a\" data-t=\"2\">")
        defaultSettings 6).depList.count (strLit "view!a.html") = 1 :=
  C6_duplicate_inclusions
    (strLit "<link rel=\"x-include\" href=\"a\" data-t=\"1\"><link rel=\"x-include\" href=\"a\" data-t=\"2\">")
    defaultSettings 6 (strLit "view!a.html") (by decide)

/-- C8: when the scanner finds a directive tag start but no closing `>`
occurs in the rest of the document, the Parse Engine stops scanning
without an error and returns the accumulated state: the document as
rewritten so far, the dependency list and the inclusion registry. -/
theorem C8_unterminated_tag (settings : Settings) (sText : Str) (cursor : Nat)
    (deps : List Str) (incl : List Inclusion) (fuel : Nat) (ft : FoundTag)
    (hft : findTag sText cursor settings = some ft)
    (hk : strIndexOf sText ['>'] (ft.position + ft.tagStart.length) = none) :
    parseLoop settings (fuel + 1) sText cursor deps incl
      = { resource := sText, depList := deps, inclusionMap := incl } := by
  simp [parseLoop, parseStep, hft, hk]

/-- C8 witness: an unterminated style directive. -/
theorem C8_witness :
    parseLoop defaultSettings 5 (strLit "<link rel=\"stylesheet\"") 0 [] []
      = { resource := strLit "<link rel=\"stylesheet\"", depList := [],
          inclusionMap := [] } :=
  C8_unterminated_tag defaultSettings (strLit "<link rel=\"stylesheet\"") 0 [] [] 4
    { name := strLit "link", position := 0, tagStart := tagPattern (strLit "link") }
    (by decide) (by decide)

lemma findTag_tagStart {sText : Str} {cursor : Nat} {settings : Settings} {ft : FoundTag}
    (h : findTag sText cursor settings = some ft) : ft.tagStart = tagPattern ft.name := by
  unfold findTag at h
  cases ha : findTagAux sText cursor settings.directiveTag none with
  | none => rw [ha] at h; cases h
  | some best =>
    rw [ha] at h
    simp only [Option.map_some', Option.some.injEq] at h
    rw [← h]

lemma sub_ne_nil {s : Str} {a b : Nat} (ha : a < s.length) (hab : a < b) :
    sub s a b ≠ [] := by
  unfold sub
  intro he
  rcases List.take_eq_nil_iff.mp he with h1 | h2
  · omega
  · rw [List.drop_eq_nil_iff_le] at h2
    omega

lemma processTag_noop_of_filter_false {sTagText : Str} {attrMap : List (Str × Str)}
    {settings : Settings} (h : filterTag sTagText attrMap settings = false) :
    processTag sTagText attrMap settings = noopResult := by
  unfold processTag
  simp [h]

/-- C1 counterexample: the tag `<link foo="1">` is found by the scanner
and fails the filter predicate, yet the document is NOT left unchanged at
its span: parsing deletes the tag (the resource becomes `AB`). -/
theorem C1_counterexample :
    parse (strLit "A<link foo=\"1\">B") defaultSettings 3
      = { resource := strLit "AB", depList := [], inclusionMap := [] }
    ∧ strLit "AB" ≠ strLit "A<link foo=\"1\">B" :=
  ⟨by decide, by decide⟩

/-- C1 (amended): a found tag whose attributes fail the filter predicate
is deleted from the document — the empty classifier text is spliced over
the tag's span — while no dependency and no inclusion is recorded for
it. -/
theorem C1_filtered_tag_deleted (settings : Settings) (sText : Str) (cursor : Nat)
    (deps : List Str) (incl : List Inclusion) (ft : FoundTag) (nK0 : Nat)
    (hft : findTag sText cursor settings = some ft)
    (hk : strIndexOf sText ['>'] (ft.position + ft.tagStart.length) = some nK0)
    (hfil : filterTag (stepSTag sText ft nK0)
        (extractAttributes (sub (stepSTag sText ft nK0) ft.tagStart.length
          ((stepSTag sText ft nK0).length - 1))) settings = false) :
    parseStep sText cursor deps incl settings
      = .next (sub sText 0 ft.position ++ sText.drop (nK0 + 1)) ft.position deps incl := by
  obtain ⟨hge, hpre⟩ := strIndexOf_some hk
  have hlen : nK0 < sText.length := lt_length_of_isPrefixOf_cons hpre
  have hts := findTag_tagStart hft
  have hts2 : 2 ≤ ft.tagStart.length := by
    rw [hts]
    simp [tagPattern]
  have h0 : ¬ nK0 = 0 := by omega
  have htag : stepSTag sText ft nK0 ≠ [] := by
    unfold stepSTag
    exact sub_ne_nil (by omega) (by omega)
  have htr : stepTagResult sText ft nK0 settings = noopResult := by
    rw [stepTagResult_eq]
    exact processTag_noop_of_filter_false hfil
  have hnx : stepNext sText ft nK0 settings
      = (sub sText 0 ft.position ++ sText.drop (nK0 + 1), ft.position) := by
    unfold stepNext
    rw [htr]
    rw [if_neg (fun he => htag (by rw [← he]; rfl))]
    simp [noopResult]
  simp only [parseStep, hft, hk, if_neg h0, htr, hnx, noopResult]

/-- C1 witness: the amended theorem applied to the counterexample
document. -/
theorem C1_witness :
    parseStep (strLit "A<link foo=\"1\">B") 0 [] [] defaultSettings
      = .next (sub (strLit "A<link foo=\"1\">B") 0 1
          ++ (strLit "A<link foo=\"1\">B").drop 15) 1 [] [] :=
  C1_filtered_tag_deleted defaultSettings (strLit "A<link foo=\"1\">B") 0 [] []
    { name := strLit "link", position := 1, tagStart := tagPattern (strLit "link") } 14
    (by decide) (by decide) (by decide)

/-- C2 counterexample: on `<link rel="x-include" href="a">` the engine
splices the placeholder over the tag, but the scan cursor is NOT set
just after the spliced text: it stays 0 (the splice start), which
differs from the length of the nonempty spliced text, and the very next
tag search finds a tag at position 0 inside the replacement — the
replacement is re-scanned and re-classified within the same pass. -/
theorem C2_counterexample :
    parseStep (strLit "<link rel=\"x-include\" href=\"a\">") 0 [] [] defaultSettings
      = .next (strLit "<link rel=\"x-include\" href=\"view!a.html\">") 0
          [strLit "view!a.html"] [{ name := strLit "view!a.html", data := none }]
    ∧ strLit "<link rel=\"x-include\" href=\"view!a.html\">"
        ≠ strLit "<link rel=\"x-include\" href=\"a\">"
    ∧ (0 : Nat) ≠ (strLit "<link rel=\"x-include\" href=\"view!a.html\">").length
    ∧ findTag (strLit "<link rel=\"x-include\" href=\"view!a.html\">") 0 defaultSettings
        = some { name := strLit "link", position := 0,
                 tagStart := tagPattern (strLit "link") } :=
  ⟨by decide, by decide, by decide, by decide⟩

/-- C2 (amended): whenever a parse step rewrites the document (the
classifier text differs from the tag substring), the scan cursor is set
to the found tag's position — the start of the spliced replacement text,
not its end — so scanning resumes at the replacement itself. -/
theorem C2_replacement_cursor (settings : Settings) (sText : Str) (cursor : Nat)
    (deps : List Str) (incl : List Inclusion) (ft : FoundTag)
    (t2 : Str) (c2 : Nat) (d2 : List Str) (i2 : List Inclusion)
    (hft : findTag sText cursor settings = some ft)
    (hstep : parseStep sText cursor deps incl settings = .next t2 c2 d2 i2)
    (hne : t2 ≠ sText) :
    c2 = ft.position := by
  simp only [parseStep, hft] at hstep
  cases hk : strIndexOf sText ['>'] (ft.position + ft.tagStart.length) with
  | none => simp only [hk] at hstep; cases hstep
  | some nK0 =>
    simp only [hk] at hstep
    by_cases h0 : nK0 = 0
    · rw [if_pos h0] at hstep
      cases hstep
      exact absurd rfl hne
    · rw [if_neg h0] at hstep
      by_cases htxt : (stepTagResult sText ft nK0 settings).text = stepSTag sText ft nK0
      · have hnx : stepNext sText ft nK0 settings = (sText, nK0 + 1) := by
          unfold stepNext
          rw [if_pos htxt]
        rw [hnx] at hstep
        cases hstep
        exact absurd rfl hne
      · have hnx : stepNext sText ft nK0 settings
            = (sub sText 0 ft.position
                ++ (stepTagResult sText ft nK0 settings).text
                ++ sText.drop (nK0 + 1), ft.position) := by
          unfold stepNext
          rw [if_neg htxt]
        rw [hnx] at hstep
        cases hstep
        rfl

/-- C2 witness: the amended theorem applied to the counterexample
step. -/
theorem C2_witness : (0 : Nat) = 0 :=
  C2_replacement_cursor defaultSettings (strLit "<link rel=\"x-include\" href=\"a\">")
    0 [] []
    { name := strLit "link", position := 0, tagStart := tagPattern (strLit "link") }
    (strLit "<link rel=\"x-include\" href=\"view!a.html\">") 0
    [strLit "view!a.html"] [{ name := strLit "view!a.html", data := none }]
    (by decide) (by decide) (by decide)

lemma toLowerStr_ne_nil {r lit : Str} (hlit : lit ≠ []) (h : toLowerStr r = lit) :
    r.isEmpty = false := by
  cases r with
  | nil => exact absurd h.symm (by simpa [toLowerStr] using hlit)
  | cons c rest => rfl

lemma filterTag_true_of (sTagText : Str) {attrMap : List (Str × Str)}
    (settings : Settings) {r h : Str}
    (hr : lookupAttr attrMap (strLit "rel") = some r)
    (hh : lookupAttr attrMap (strLit "href") = some h)
    (hne : h.isEmpty = false)
    (hrne : r.isEmpty = false)
    (hrec : toLowerStr r = strLit "stylesheet" ∨ toLowerStr r = strLit "css"
      ∨ toLowerStr r = strLit "include" ∨ toLowerStr r = strLit "x-include"
      ∨ toLowerStr r = strLit "require" ∨ toLowerStr r = strLit "x-require") :
    filterTag sTagText attrMap settings = true := by
  unfold filterTag
  simp only [hr, hh, hne, hrne, Bool.false_eq_true, reduceIte, Bool.not_false,
    Bool.true_and, decide_eq_true_eq]
  exact hrec

/-- C3 counterexample: the style directive href `foo!a.css` matches the
loader-prefix pattern `^\w+!`, yet classification does not return it
verbatim — the default CSS loader is prepended. -/
theorem C3_counterexample :
    pluginRegExpTest (strLit "foo!a.css") = true
    ∧ (processTag (strLit "<link rel=\"stylesheet\" href=\"foo!a.css\">")
        (extractAttributes (strLit "rel=\"stylesheet\" href=\"foo!a.css\""))
        defaultSettings).dependency = some (strLit "css!foo!a.css")
    ∧ strLit "css!foo!a.css" ≠ strLit "foo!a.css" :=
  ⟨by decide, by decide, by decide⟩

/-- C3 (amended): for a style directive the href is used verbatim exactly
when it starts with the literal prefix `css!` or `link!`; any other href
— with or without a loader prefix — gets the configured CSS loader
prepended. -/
theorem C3_style_loader (settings : Settings) (sTagText : Str)
    (attrMap : List (Str × Str)) (r h : Str)
    (hr : lookupAttr attrMap (strLit "rel") = some r)
    (hty : toLowerStr r = strLit "stylesheet" ∨ toLowerStr r = strLit "css")
    (hh : lookupAttr attrMap (strLit "href") = some h)
    (hne : h.isEmpty = false) :
    (processTag sTagText attrMap settings).dependency
      = some (if (strLit "css!").isPrefixOf h || (strLit "link!").isPrefixOf h
              then h else settings.cssLoader ++ '!' :: h) := by
  have hrne : r.isEmpty = false := by
    rcases hty with hty | hty
    · exact toLowerStr_ne_nil (by decide) hty
    · exact toLowerStr_ne_nil (by decide) hty
  have hf : filterTag sTagText attrMap settings = true :=
    filterTag_true_of sTagText settings hr hh hne hrne (by tauto)
  unfold processTag
  rw [if_pos hf]
  simp only [hr, hh, Option.getD_some]
  rw [if_pos hty]

/-- C3 witness: the amended theorem applied to an href with a
non-default loader prefix. -/
theorem C3_witness :
    (processTag (strLit "t")
        [(strLit "rel", strLit "stylesheet"), (strLit "href", strLit "foo!a.css")]
        defaultSettings).dependency
      = some (if (strLit "css!").isPrefixOf (strLit "foo!a.css")
                || (strLit "link!").isPrefixOf (strLit "foo!a.css")
              then strLit "foo!a.css"
              else defaultSettings.cssLoader ++ '!' :: strLit "foo!a.css") :=
  C3_style_loader defaultSettings (strLit "t")
    [(strLit "rel", strLit "stylesheet"), (strLit "href", strLit "foo!a.css")]
    (strLit "stylesheet") (strLit "foo!a.css")
    (by decide) (Or.inl (by decide)) (by decide) (by decide)

/-- C4: under default settings, classifying the inclusion directive
`<link rel="x-include" href="parts/head" data-title="Hi">` yields the
dependency `view!parts/head.html`, an inclusion entry with that name and
data title `Hi`, and as replacement text the exact placeholder
`<link rel="x-include" href="view!parts/head.html">`. -/
theorem C4_inclusion_classification :
    processTag (strLit "<link rel=\"x-include\" href=\"parts/head\" data-title=\"Hi\">")
        (extractAttributes (strLit "rel=\"x-include\" href=\"parts/head\" data-title=\"Hi\""))
        defaultSettings
      = { dependency := some (strLit "view!parts/head.html"),
          inclusion := some { name := strLit "view!parts/head.html",
                              data := some [(strLit "title", strLit "Hi")] },
          text := strLit "<link rel=\"x-include\" href=\"view!parts/head.html\">" } := by
  decide

/-- C5: an inclusion directive carrying `data-if="false"` is dropped by
classification under the default conditional evaluator: the result is
the no-op `{dependency := none, inclusion := none, text := ""}`, so the
tag text becomes empty and neither a dependency nor an inclusion entry
is produced. -/
theorem C5_data_if_false_noop (settings : Settings) (sTagText : Str)
    (attrMap : List (Str × Str)) (r : Str)
    (hr : lookupAttr attrMap (strLit "rel") = some r)
    (hty : toLowerStr r = strLit "include" ∨ toLowerStr r = strLit "x-include")
    (hdif : lookupAttr attrMap (strLit "data-if") = some (strLit "false"))
    (hpi : settings.processIf = processIf) :
    processTag sTagText attrMap settings = noopResult := by
  unfold processTag
  by_cases hf : filterTag sTagText attrMap settings
  · rw [if_pos hf]
    simp only [hr, Option.getD_some]
    have hcss : ¬ (toLowerStr r = strLit "stylesheet" ∨ toLowerStr r = strLit "css") := by
      rcases hty with hty | hty <;> rw [hty] <;> decide
    rw [if_neg hcss, if_pos hty]
    simp only [hdif, hpi]
    rw [if_neg (by decide : ¬ processIf (strLit "false") = true)]
  · rw [if_neg hf]

/-- C5 witness: a concrete inclusion directive with `data-if="false"`
under the default settings. -/
theorem C5_witness :
    processTag (strLit "t")
        [(strLit "rel", strLit "x-include"), (strLit "href", strLit "a"),
         (strLit "data-if", strLit "false")]
        defaultSettings = noopResult :=
  C5_data_if_false_noop defaultSettings (strLit "t")
    [(strLit "rel", strLit "x-include"), (strLit "href", strLit "a"),
     (strLit "data-if", strLit "false")]
    (strLit "x-include") (by decide) (Or.inr (by decide)) (by decide) rfl

lemma takeWhile_append_all {p : Char → Bool} :
    ∀ {l : Str} (r : Str), (∀ c ∈ l, p c = true) →
      List.takeWhile p (l ++ r) = l ++ List.takeWhile p r := by
  intro l
  induction l with
  | nil => intro r _; rfl
  | cons c rest ih =>
    intro r h
    have hc : p c = true := h c (List.mem_cons_self _ _)
    show List.takeWhile p (c :: (rest ++ r)) = c :: (rest ++ List.takeWhile p r)
    rw [List.takeWhile_cons, if_pos hc, ih r (fun d hd => h d (List.mem_cons_of_mem c hd))]

lemma dropWhile_append_all {p : Char → Bool} :
    ∀ {l : Str} (r : Str), (∀ c ∈ l, p c = true) →
      List.dropWhile p (l ++ r) = List.dropWhile p r := by
  intro l
  induction l with
  | nil => intro r _; rfl
  | cons c rest ih =>
    intro r h
    have hc : p c = true := h c (List.mem_cons_self _ _)
    show List.dropWhile p (c :: (rest ++ r)) = List.dropWhile p r
    rw [List.dropWhile_cons, if_pos hc, ih r (fun d hd => h d (List.mem_cons_of_mem c hd))]

lemma extractAux_nil (fuel : Nat) : extractAttributesAux fuel [] = [] := by
  cases fuel <;> rfl

lemma extractAux_space (fuel : Nat) (rest : Str) :
    extractAttributesAux (fuel + 1) (' ' :: rest) = extractAttributesAux fuel rest := by
  simp [extractAttributesAux]

lemma extractAux_pair (fuel : Nat) (name value rest : Str)
    (hn : ∀ c ∈ name, isNameChar c = true) (hn0 : name ≠ [])
    (hv : ∀ c ∈ value, notQuote c = true) :
    extractAttributesAux (fuel + 1) (name ++ '=' :: '"' :: (value ++ '"' :: rest))
      = (toLowerStr name, value) :: extractAttributesAux fuel rest := by
  cases name with
  | nil => exact absurd rfl hn0
  | cons c ntail =>
    have hc : isNameChar c = true := hn c (List.mem_cons_self _ _)
    have hcs : ¬ c = ' ' := by
      intro he
      rw [he] at hc
      cases hc
    have hdw : List.dropWhile isNameChar
        ((c :: ntail) ++ '=' :: '"' :: (value ++ '"' :: rest))
        = '=' :: '"' :: (value ++ '"' :: rest) := by
      rw [dropWhile_append_all _ hn, List.dropWhile_cons]
      simp [isNameChar]
    have htw : List.takeWhile isNameChar
        ((c :: ntail) ++ '=' :: '"' :: (value ++ '"' :: rest))
        = c :: ntail := by
      rw [takeWhile_append_all _ hn, List.takeWhile_cons]
      simp [isNameChar]
    have htv : List.takeWhile notQuote (value ++ '"' :: rest) = value := by
      rw [takeWhile_append_all _ hv, List.takeWhile_cons]
      simp [notQuote]
    have hdv : List.dropWhile notQuote (value ++ '"' :: rest) = '"' :: rest := by
      rw [dropWhile_append_all _ hv, List.dropWhile_cons]
      simp [notQuote]
    show extractAttributesAux (fuel + 1)
        (c :: (ntail ++ '=' :: '"' :: (value ++ '"' :: rest))) = _
    rw [extractAttributesAux]
    rw [if_neg hcs]
    have hdw2 : List.dropWhile isNameChar
        (c :: (ntail ++ '=' :: '"' :: (value ++ '"' :: rest)))
        = '=' :: '"' :: (value ++ '"' :: rest) := hdw
    rw [hdw2]
    have htw2 : List.takeWhile isNameChar
        (c :: (ntail ++ '=' :: '"' :: (value ++ '"' :: rest))) = c :: ntail := htw
    rw [htw2]
    show (toLowerStr (c :: ntail),
        List.takeWhile notQuote (value ++ '"' :: rest)) ::
        extractAttributesAux fuel
          (List.drop 1 (List.dropWhile notQuote (value ++ '"' :: rest))) = _
    rw [htv, hdv]
    simp

lemma extractAttributes_placeholder (N : Str) (hq : '"' ∉ N) :
    extractAttributes (strLit "rel=\"x-include\" href=\"" ++ N ++ ['"'])
      = [(strLit "rel", strLit "x-include"), (strLit "href", N)] := by
  have h22 : (strLit "rel=\"x-include\" href=\"").length = 22 := rfl
  have hlen : (strLit "rel=\"x-include\" href=\"" ++ N ++ ['"']).length
      = N.length + 23 := by
    simp [List.length_append, h22]
    omega
  have hshape : strLit "rel=\"x-include\" href=\"" ++ N ++ ['"']
      = strLit "rel" ++ '=' :: '"' :: (strLit "x-include" ++ '"' ::
          (' ' :: (strLit "href" ++ '=' :: '"' :: (N ++ '"' :: [])))) := rfl
  have hvN : ∀ c ∈ N, notQuote c = true := by
    intro c hc
    have : c ≠ '"' := fun he => hq (he ▸ hc)
    simp [notQuote, this]
  rw [extractAttributes, hlen, hshape]
  rw [(by omega : N.length + 23 = (N.length + 22) + 1)]
  rw [extractAux_pair (N.length + 22) (strLit "rel") (strLit "x-include") _
    (by decide) (by decide) (by decide)]
  rw [(by omega : N.length + 22 = (N.length + 21) + 1)]
  rw [extractAux_space]
  rw [(by omega : N.length + 21 = (N.length + 20) + 1)]
  rw [extractAux_pair (N.length + 20) (strLit "href") N [] (by decide) (by decide) hvN]
  rw [extractAux_nil]
  rfl

lemma pluginRegExpTest_isEmpty_false {N : Str} (h : pluginRegExpTest N = true) :
    N.isEmpty = false := by
  cases N with
  | nil => exact absurd h (by decide)
  | cons c r => rfl

lemma processTag_placeholder (N : Str) (hplug : pluginRegExpTest N = true)
    (hext : hasFileExt N = true) :
    processTag (inclusionMarker N)
        [(strLit "rel", strLit "x-include"), (strLit "href", N)] defaultSettings
      = { dependency := some N, inclusion := some { name := N, data := none },
          text := inclusionMarker N } := by
  have hNne := pluginRegExpTest_isEmpty_false hplug
  have hrel : lookupAttr [(strLit "rel", strLit "x-include"), (strLit "href", N)]
      (strLit "rel") = some (strLit "x-include") := rfl
  have hhref : lookupAttr [(strLit "rel", strLit "x-include"), (strLit "href", N)]
      (strLit "href") = some N := rfl
  have hdif : lookupAttr [(strLit "rel", strLit "x-include"), (strLit "href", N)]
      (strLit "data-if") = none := rfl
  have hf := filterTag_true_of (inclusionMarker N) defaultSettings hrel hhref hNne
    (by decide) (Or.inr (Or.inr (Or.inr (Or.inl (by decide)))))
  unfold processTag
  rw [if_pos hf]
  simp only [hrel, hhref, Option.getD_some]
  rw [if_neg (by decide : ¬ (toLowerStr (strLit "x-include") = strLit "stylesheet"
    ∨ toLowerStr (strLit "x-include") = strLit "css"))]
  rw [if_pos (Or.inr (by decide) : toLowerStr (strLit "x-include") = strLit "include"
    ∨ toLowerStr (strLit "x-include") = strLit "x-include")]
  simp only [hdif]
  unfold inclusionResult
  simp only [hplug, reduceIte, nameWithExt, hext]
  rfl

lemma inclusionMarker_split (N : Str) :
    inclusionMarker N
      = tagPattern (strLit "link")
          ++ (strLit "rel=\"x-include\" href=\"" ++ N ++ sInclusionEnd) := rfl

lemma inclusionMarker_length (N : Str) :
    (inclusionMarker N).length = N.length + 30 := by
  have h28 : sInclusionStart.length = 28 := rfl
  have h2 : sInclusionEnd.length = 2 := rfl
  simp [inclusionMarker, List.length_append, h28, h2]
  omega

lemma findTag_placeholder (N rest : Str) :
    findTag (inclusionMarker N ++ rest) 0 defaultSettings
      = some { name := strLit "link", position := 0,
               tagStart := tagPattern (strLit "link") } := by
  have hpre : (tagPattern (strLit "link")).isPrefixOf (inclusionMarker N ++ rest) = true := by
    rw [inclusionMarker_split, List.append_assoc]
    exact isPrefixOf_append_left _ (isPrefixOf_self _)
  have h1 : strIndexOf (inclusionMarker N ++ rest) (tagPattern (strLit "link")) 0
      = some 0 := by
    unfold strIndexOf
    rw [List.drop_zero, strSearch_of_isPrefixOf hpre]
    rfl
  simp only [findTag, defaultSettings, findTagAux, h1]
  cases h2 : strIndexOf (inclusionMarker N ++ rest) (tagPattern (strLit "x-link")) 0 with
  | none => rfl
  | some k => simp [Nat.not_lt_zero]

lemma gtIndexOf_placeholder (N rest : Str) (hgt : '>' ∉ N) :
    strIndexOf (inclusionMarker N ++ rest) ['>'] 6 = some (N.length + 29) := by
  have hE : sInclusionEnd = '"' :: '>' :: [] := rfl
  have hdrop : (inclusionMarker N ++ rest).drop 6
      = (strLit "rel=\"x-include\" href=\"" ++ N ++ sInclusionEnd) ++ rest := by
    rw [inclusionMarker_split, List.append_assoc]
    exact List.drop_left' rfl
  have hre : (strLit "rel=\"x-include\" href=\"" ++ N ++ sInclusionEnd) ++ rest
      = strLit "rel=\"x-include\" href=\"" ++ ((N ++ ['"']) ++ ('>' :: rest)) := by
    simp [hE, List.append_assoc]
  have hq2 : '>' ∉ N ++ ['"'] := by
    intro hm
    rcases List.mem_append.mp hm with hm1 | hm2
    · exact hgt hm1
    · revert hm2; decide
  have hsearch : strSearch ['>']
      ((strLit "rel=\"x-include\" href=\"" ++ N ++ sInclusionEnd) ++ rest)
      = some (N.length + 23) := by
    rw [hre,
      strSearch_skip _ (by decide : '>' ∉ strLit "rel=\"x-include\" href=\""),
      strSearch_skip _ hq2,
      strSearch_of_isPrefixOf (by simp [List.isPrefixOf] :
        (['>'] : Str).isPrefixOf ('>' :: rest) = true)]
    have h22 : (strLit "rel=\"x-include\" href=\"").length = 22 := rfl
    simp only [Option.map_some', Option.some.injEq, List.length_append,
      List.length_cons, List.length_nil, h22]
    omega
  unfold strIndexOf
  rw [hdrop, hsearch]
  simp only [Option.map_some', Option.some.injEq]

lemma stepSTag_placeholder (N rest : Str) :
    stepSTag (inclusionMarker N ++ rest)
        { name := strLit "link", position := 0,
          tagStart := tagPattern (strLit "link") } (N.length + 29)
      = inclusionMarker N := by
  unfold stepSTag sub
  simp only [List.drop_zero, Nat.sub_zero]
  exact List.take_left' (by rw [inclusionMarker_length])

lemma placeholder_inner (N : Str) :
    sub (inclusionMarker N) 6 ((inclusionMarker N).length - 1)
      = strLit "rel=\"x-include\" href=\"" ++ N ++ ['"'] := by
  have hE : sInclusionEnd = '"' :: '>' :: [] := rfl
  have hdropM : (inclusionMarker N).drop 6
      = strLit "rel=\"x-include\" href=\"" ++ N ++ sInclusionEnd := by
    rw [inclusionMarker_split]
    exact List.drop_left' rfl
  have hsplit2 : strLit "rel=\"x-include\" href=\"" ++ N ++ sInclusionEnd
      = (strLit "rel=\"x-include\" href=\"" ++ N ++ ['"']) ++ ['>'] := by
    simp [hE, List.append_assoc]
  have h22 : (strLit "rel=\"x-include\" href=\"").length = 22 := rfl
  unfold sub
  rw [inclusionMarker_length, hdropM, hsplit2]
  rw [(by omega : N.length + 30 - 1 - 6 = N.length + 24 - 1)]
  exact List.take_left' (by simp [List.length_append, h22]; omega)

/-- C10: classification is idempotent on placeholder markers.  For every
identifier that carries a loader prefix (`^\w+!`) and already has a file
extension, classifying the placeholder tag that the engine spliced for
it reproduces exactly that tag as replacement text, the identifier as
dependency and as inclusion name; consequently, a parse step that
re-encounters the spliced placeholder (with the identifier already in
the dependency list and registry) leaves the document and the
accumulated state unchanged and advances the cursor past the
placeholder, which lets the scan terminate. -/
theorem C10_placeholder_idempotent (N rest : Str) (dat : Option (List (Str × Str)))
    (hplug : pluginRegExpTest N = true) (hext : hasFileExt N = true)
    (hq : '"' ∉ N) (hgt : '>' ∉ N) :
    processTag (inclusionMarker N)
        (extractAttributes (sub (inclusionMarker N) 6 ((inclusionMarker N).length - 1)))
        defaultSettings
      = { dependency := some N, inclusion := some { name := N, data := none },
          text := inclusionMarker N }
    ∧ parseStep (inclusionMarker N ++ rest) 0 [N] [{ name := N, data := dat }]
        defaultSettings
      = .next (inclusionMarker N ++ rest) (inclusionMarker N).length
          [N] [{ name := N, data := dat }] := by
  have hclassify : processTag (inclusionMarker N)
      (extractAttributes (sub (inclusionMarker N) 6 ((inclusionMarker N).length - 1)))
      defaultSettings
      = { dependency := some N, inclusion := some { name := N, data := none },
          text := inclusionMarker N } := by
    rw [placeholder_inner, extractAttributes_placeholder N hq]
    exact processTag_placeholder N hplug hext
  refine ⟨hclassify, ?_⟩
  have hkA : strIndexOf (inclusionMarker N ++ rest) ['>']
      ((0 : Nat) + (tagPattern (strLit "link")).length) = some (N.length + 29) :=
    gtIndexOf_placeholder N rest hgt
  have h0 : ¬ (N.length + 29) = 0 := by omega
  have hft := findTag_placeholder N rest
  have hsTag := stepSTag_placeholder N rest
  have htr : stepTagResult (inclusionMarker N ++ rest)
      { name := strLit "link", position := 0,
        tagStart := tagPattern (strLit "link") } (N.length + 29) defaultSettings
      = { dependency := some N, inclusion := some { name := N, data := none },
          text := inclusionMarker N } := by
    rw [stepTagResult_eq, hsTag]
    exact hclassify
  have hnx : stepNext (inclusionMarker N ++ rest)
      { name := strLit "link", position := 0,
        tagStart := tagPattern (strLit "link") } (N.length + 29) defaultSettings
      = (inclusionMarker N ++ rest, N.length + 29 + 1) := by
    unfold stepNext
    rw [htr, hsTag]
    rw [if_pos rfl]
  have helem : List.elem N [N] = true := List.elem_iff.mpr (List.mem_singleton_self N)
  have hlook : inclLookup [{ name := N, data := dat }] N
      = some { name := N, data := dat } := by
    simp [inclLookup]
  simp only [parseStep, hft, hkA, if_neg h0, htr, hnx, regInsert, hlook,
    Option.isNone_some, Bool.false_eq_true, reduceIte,
    pluginRegExpTest_isEmpty_false hplug, helem]
  rw [inclusionMarker_length]

/-- C10 witness: the concrete placeholder identifier `view!a.html`. -/
theorem C10_witness :
    processTag (inclusionMarker (strLit "view!a.html"))
        (extractAttributes (sub (inclusionMarker (strLit "view!a.html")) 6
          ((inclusionMarker (strLit "view!a.html")).length - 1)))
        defaultSettings
      = { dependency := some (strLit "view!a.html"),
          inclusion := some { name := strLit "view!a.html", data := none },
          text := inclusionMarker (strLit "view!a.html") }
    ∧ parseStep (inclusionMarker (strLit "view!a.html") ++ strLit "x") 0
        [strLit "view!a.html"] [{ name := strLit "view!a.html", data := none }]
        defaultSettings
      = .next (inclusionMarker (strLit "view!a.html") ++ strLit "x")
          (inclusionMarker (strLit "view!a.html")).length
          [strLit "view!a.html"] [{ name := strLit "view!a.html", data := none }] :=
  C10_placeholder_idempotent (strLit "view!a.html") (strLit "x") none
    (by decide) (by decide) (by decide) (by decide)
